import Mathlib

/-!
Shallow embedding of the `loaded` HTTP load generator (Rust) together with
proofs about the properties its specification states.  Each definition below
is a direct translation of a function or data structure from the Rust source
tree; machine integers (`usize`, `u128`) are modelled as `Nat` (the program
only ever adds, divides and takes remainders of values far below overflow),
byte buffers as `List Nat`, and time instants (`tokio::time::Instant`) as
`Nat` nanosecond timestamps.
-/

namespace Loaded

/-! ## `src/util.rs` -/

/-- Rust `util::divvy`: splits `toDivvy` across `numItems` slots, the first
`toDivvy % numItems` slots receiving one extra.  The Rust function returns an
iterator `(0..num_items).map(...)`; we materialise it as a list. -/
def divvy (toDivvy numItems : Nat) : List Nat :=
  (List.range numItems).map (fun i =>
    if i < toDivvy % numItems then toDivvy / numItems + 1 else toDivvy / numItems)

/-! ## `src/main.rs` -/

/-- The `main` function's `Run` dispatch branch: validates `connections ≥ threads` before
invoking `cmd::run::run` (which performs all I/O).  The workload itself is a
parameter so that the theorem can show the error occurs independently of it. -/
def mainRunCmd (connections threads : Nat) (runCmd : Except String Unit) :
    Except String Unit :=
  if connections < threads then
    Except.error
      s!"Connections ({connections}) cannot be less than the number of threads ({threads})."
  else
    runCmd

/-- Process exit code resulting from `main`'s `anyhow::Result`: an `Err`
makes the process exit non-zero (1), `Ok` exits 0. -/
def processExitCode (r : Except String Unit) : Nat :=
  match r with
  | Except.error _ => 1
  | Except.ok _ => 0

/-! ## `src/cmd/run.rs` -/

/-- Rust `ConnectionRunInfo` from `src/connection.rs`: start/end instants of one
connection's request loop, as nanosecond timestamps. -/
structure ConnectionRunInfo where
  startTime : Nat
  endTime : Nat
deriving Repr, DecidableEq

/-- Rust `WorkerInfo` from `src/worker.rs`. -/
structure WorkerInfo where
  workerId : Nat
  runInfos : List ConnectionRunInfo
deriving Repr, DecidableEq

/-- One iteration of the `for info in infos` loop in `get_total_runtime`:
updates `earliest_start` with the fold over start times, then recomputes
`latest_end` as a fold over end times whose initial accumulator is — exactly
as in the source — the freshly updated `earliest_start`. -/
def getTotalRuntimeStep (acc : Nat × Nat) (info : WorkerInfo) : Nat × Nat :=
  let es := info.runInfos.foldl
    (fun a t => if t.startTime < a then t.startTime else a) acc.1
  let le := info.runInfos.foldl
    (fun a t => if a < t.endTime then t.endTime else a) es
  (es, le)

/-- Rust `cmd::run::get_total_runtime`.  `now` stands for the two `Instant::now()`
initialisations of `earliest_start` and `latest_end` (taken at summary time,
hence not earlier than any recorded instant). -/
def get_total_runtime (now : Nat) (infos : List WorkerInfo) : Nat :=
  let p := infos.foldl getTotalRuntimeStep (now, now)
  p.2 - p.1

/-- What the specification asks of `get_total_runtime`:
`max(end) − min(start)` across all connections of all workers. -/
def specTotalRuntime (infos : List WorkerInfo) : Nat :=
  let all := (infos.map WorkerInfo.runInfos).flatten
  (all.map ConnectionRunInfo.endTime).foldl max 0 -
    (all.map ConnectionRunInfo.startTime).foldl min
      ((all.map ConnectionRunInfo.startTime).headD 0)

/-! ## `src/connection.rs` -/

/-- Rust `RunFlag`: conjunction of the process-wide atomic flag and the
per-connection local flag. -/
structure RunFlag where
  globalRun : Bool
  localRun : Bool
deriving Repr, DecidableEq

/-- Rust `RunFlag::should_run`. -/
def RunFlag.shouldRun (f : RunFlag) : Bool :=
  f.globalRun && f.localRun

/-! ## `src/connection/completion.rs` -/

/-- Rust `RequestCompletionCondition`: its private request counter and quota.
The `local_run : Rc<AtomicBool>` it holds is the same cell as the owning
connection's `RunFlag.localRun`, so the hook is modelled as acting on a
`RunFlag` alongside its own state. -/
structure RequestCompletionCondition where
  numRequests : Nat
  numRequestsForCompletion : Nat
deriving Repr, DecidableEq

/-- Rust `RequestCompletionCondition::new`. -/
def RequestCompletionCondition.new (quota : Nat) : RequestCompletionCondition :=
  { numRequests := 0, numRequestsForCompletion := quota }

/-- Rust `RequestCompletionCondition::should_issue_request`: increments the
counter; exactly when it becomes `quota + 1`, stores `false` into the local
run flag and returns `false`.  The global flag is untouched (the hook holds
no reference to it). -/
def rccShouldIssue (h : RequestCompletionCondition) (f : RunFlag) :
    Bool × RequestCompletionCondition × RunFlag :=
  let n := h.numRequests + 1
  if n = h.numRequestsForCompletion + 1 then
    (false, { h with numRequests := n }, { f with localRun := false })
  else
    (true, { h with numRequests := n }, f)

/-- State of hook and flags after `k` calls to `should_issue_request`. -/
def rccRun (h : RequestCompletionCondition) (f : RunFlag) :
    Nat → RequestCompletionCondition × RunFlag
  | 0 => (h, f)
  | k + 1 =>
    let p := rccRun h f k
    (rccShouldIssue p.1 p.2).2

/-! ## `src/connection/stats.rs` -/

/-- Rust `stats::InstantStats`. -/
structure InstantStats where
  requestsIssued : Nat
  bytesWritten : Nat
  bytesRead : Nat
deriving Repr, DecidableEq

/-- Rust `stats::RunStats`.  The two HDR histograms are modelled as the multiset
(list) of recorded nanosecond samples; the error map `status → count` as a
total function defaulting to 0. -/
structure RunStats where
  errors : Nat → Nat
  rttLatencyHist : List Nat
  ttfbLatencyHist : List Nat

/-- Rust `stats::WorkerStats`. -/
structure WorkerStats where
  instantStats : InstantStats
  runStats : RunStats

/-- The `StatsCollector` hook's per-request fields (the shared `WorkerStats` handle is
passed explicitly).  `start` and `timeToFirstByte` are `Option`s as in the
source; `after_response` unwraps them. -/
structure StatsCollector where
  reqSize : Nat
  start : Option Nat
  timeToFirstByte : Option Nat
deriving Repr, DecidableEq

/-- Rust `http::StatusCode::is_success`: status in `200..=299`. -/
def isSuccess (status : Nat) : Bool :=
  200 ≤ status && status ≤ 299

/-- Rust `StatsCollector::after_response` acting on the shared `WorkerStats`.
`now` is the instant of the call (so RTT = `now − start`); `none` models the
panic of `self.start.unwrap()` / `self.time_to_first_byte.unwrap()` when a
2xx response arrives before `before_request`/`after_request` ran. -/
def afterResponse (c : StatsCollector) (w : WorkerStats)
    (status respLen now : Nat) : Option WorkerStats :=
  if isSuccess status then do
    let s ← c.start
    let t ← c.timeToFirstByte
    some { w with
      runStats := { w.runStats with
        rttLatencyHist := (now - s) :: w.runStats.rttLatencyHist,
        ttfbLatencyHist := t :: w.runStats.ttfbLatencyHist },
      instantStats := {
        requestsIssued := w.instantStats.requestsIssued + 1,
        bytesWritten := w.instantStats.bytesWritten + c.reqSize,
        bytesRead := w.instantStats.bytesRead + respLen } }
  else
    some { w with runStats := { w.runStats with
      errors := fun sc =>
        if sc = status then w.runStats.errors sc + 1 else w.runStats.errors sc } }

/-! ## `src/engine/s3/uri.rs` -/

/-- Rust `ArbitraryRadixNumber`: a vector of `digits` (most-significant
first, as in the source `Vec`), each in `[0, radix)`. -/
structure ArbitraryRadixNumber where
  digits : List Nat
  radix : Nat
deriving Repr, DecidableEq

/-- Rust `ArbitraryRadixNumber::new`. -/
def ArbitraryRadixNumber.new (numDigits radix : Nat) : ArbitraryRadixNumber :=
  { digits := List.replicate numDigits 0, radix := radix }

/-- The carry loop of `ArbitraryRadixNumber::increment`, recast as recursion
on the most-significant-first digit list: the tail (ending at the source's
starting index `len − 1`) is incremented first; a head digit is touched only
when the tail wrapped, and the loop breaks at index 0 regardless, so any
carry out of the most-significant digit (the `Bool`) is discarded. -/
def incDigits (radix : Nat) : List Nat → List Nat × Bool
  | [] => ([], true)
  | dig :: rest =>
    let p := incDigits radix rest
    if p.2 then
      ((dig + 1) % radix :: p.1, decide ((dig + 1) % radix = 0))
    else
      (dig :: p.1, false)

/-- Rust `ArbitraryRadixNumber::increment`. -/
def ArbitraryRadixNumber.increment (n : ArbitraryRadixNumber) : ArbitraryRadixNumber :=
  { n with digits := (incDigits n.radix n.digits).1 }

/-- Rust `UriProvider`.  The `hyper::Uri` values it yields are modelled as
the formatted strings the source parses (the parse is injective on the
produced component strings). -/
structure UriProvider where
  base : String
  bucket : String
  objPfx : String
  numObjsPerPfx : Nat
  objCnt : Nat
  radixNum : Option ArbitraryRadixNumber
deriving Repr, DecidableEq

/-- Rust `UriProvider::new`. -/
def UriProvider.new (uriBase bucket objPfx : String)
    (depth numObjs numBranchPerDepth : Nat) : UriProvider :=
  { base := uriBase, bucket := bucket, objPfx := objPfx,
    numObjsPerPfx := numObjs, objCnt := 0,
    radixNum :=
      if 0 < depth then some (ArbitraryRadixNumber.new depth numBranchPerDepth)
      else none }

/-- Directory components rendered as in the source: `write!(s, "{i}/")` per
digit, most significant first. -/
def dirString (digits : List Nat) : String :=
  digits.foldl (fun s i => s ++ toString i ++ "/") ""

/-- Rust `UriProvider::next`: formats
`"{base}/{bucket}/{dir}{objPfx}{objCnt}"`, then advances `objCnt` modulo
`numObjsPerPfx` and increments the radix counter exactly on wrap. -/
def UriProvider.next (p : UriProvider) : String × UriProvider :=
  let dir := match p.radixNum with
    | none => ""
    | some n => dirString n.digits
  let uri := p.base ++ "/" ++ p.bucket ++ "/" ++ dir ++ p.objPfx ++ toString p.objCnt
  let objCnt2 := (p.objCnt + 1) % p.numObjsPerPfx
  let radixNum2 :=
    if objCnt2 = 0 then p.radixNum.map ArbitraryRadixNumber.increment
    else p.radixNum
  (uri, { p with objCnt := objCnt2, radixNum := radixNum2 })

/-- Provider state after `k` calls to `next`. -/
def UriProvider.iter (p : UriProvider) : Nat → UriProvider
  | 0 => p
  | k + 1 => (UriProvider.iter p k).next.2

/-- The URI produced by the `k`-th call to `next` (counting from 0). -/
def uriAtStep (p : UriProvider) (k : Nat) : String :=
  (p.iter k).next.1

/-- The claim's digit vector: the `d`-digit base-`b` representation of `v`,
most significant digit first (`d0 = v / b^(d−1) mod b`). -/
def baseRep (b d v : Nat) : List Nat :=
  (List.range d).map (fun i => v / b ^ (d - 1 - i) % b)

/-- Recursive form of the `d`-digit base-`b` representation, most significant
digit first; used to drive the induction, and proved equal to `baseRep`. -/
def digitsBE (b : Nat) : Nat → Nat → List Nat
  | 0, _ => []
  | d + 1, v => v / b ^ d % b :: digitsBE b d v

/-! ## `src/engine/s3/traffic.rs` -/

/-- Rust `cli::TrafficPattern`. -/
inductive TrafficPattern where
  | put
  | get
  | both
deriving Repr, DecidableEq

/-- Rust `TrafficState`. -/
inductive TrafficState where
  | put (uri : String)
  | get (uri : String)
deriving Repr, DecidableEq

/-- Rust `TrafficStateMachine`. -/
structure TrafficStateMachine where
  pattern : TrafficPattern
  uriSupplier : UriProvider
  state : TrafficState
deriving Repr, DecidableEq

/-- Rust `TrafficStateMachine::new`: the initial state is a `Put` of the
supplier's first URI for patterns `Put` and `Both`, a `Get` of it for
pattern `Get`. -/
def TrafficStateMachine.new (pattern : TrafficPattern)
    (uriSupplier : UriProvider) : TrafficStateMachine :=
  match pattern with
  | TrafficPattern.put | TrafficPattern.both =>
    { pattern := pattern
      uriSupplier := uriSupplier.next.2
      state := TrafficState.put uriSupplier.next.1 }
  | TrafficPattern.get =>
    { pattern := pattern
      uriSupplier := uriSupplier.next.2
      state := TrafficState.get uriSupplier.next.1 }

/-- Rust `TrafficStateMachine::next`: computes the new state and
`mem::replace`s it in, returning the previous one. -/
def TrafficStateMachine.next (m : TrafficStateMachine) :
    TrafficState × TrafficStateMachine :=
  match m.pattern with
  | TrafficPattern.put =>
    (m.state, { m with
                uriSupplier := m.uriSupplier.next.2
                state := TrafficState.put m.uriSupplier.next.1 })
  | TrafficPattern.get =>
    (m.state, { m with
                uriSupplier := m.uriSupplier.next.2
                state := TrafficState.get m.uriSupplier.next.1 })
  | TrafficPattern.both =>
    match m.state with
    | TrafficState.put uri =>
      (m.state, { m with state := TrafficState.get uri })
    | TrafficState.get _ =>
      (m.state, { m with
                  uriSupplier := m.uriSupplier.next.2
                  state := TrafficState.put m.uriSupplier.next.1 })

/-- Machine state after `j` calls to `next`. -/
def tsmIter (m : TrafficStateMachine) : Nat → TrafficStateMachine
  | 0 => m
  | j + 1 => (tsmIter m j).next.2

/-- The state emitted by the `j`-th call to `next` (counting from 0). -/
def tsmEmit (m : TrafficStateMachine) (j : Nat) : TrafficState :=
  (tsmIter m j).next.1

/-! ## `src/stream/perpetual_stream.rs` -/

/-- Rust `CHUNK_SIZE`. -/
def CHUNK_SIZE : Nat := 16384

/-- Rust `PerpetualByteStream`: reads `numToRead` bytes circularly out of
`inner` starting at `idx`. -/
structure PerpetualByteStream where
  inner : List Nat
  idx : Nat
  numToRead : Nat
  numRead : Nat
deriving Repr, DecidableEq

/-- Rust `PerpetualByteStream::new`. -/
def PerpetualByteStream.new (inner : List Nat) (startingOffset len : Nat) :
    PerpetualByteStream :=
  { inner := inner, idx := startingOffset, numToRead := len, numRead := 0 }

/-- Rust `PerpetualByteStream::poll_next`: `none` is stream end
(`Poll::Ready(None)`); otherwise one data frame and the successor state.
The first branch serves `inner[idx .. idx+chunk]`, the second the tail
`inner[idx ..]` and resets `idx` to 0. -/
def pollNext (s : PerpetualByteStream) :
    Option (List Nat × PerpetualByteStream) :=
  if s.numRead < s.numToRead then
    let chunkSize := min (s.numToRead - s.numRead) CHUNK_SIZE
    if s.idx + chunkSize ≤ s.inner.length then
      let sub := (s.inner.drop s.idx).take chunkSize
      some (sub, { s with idx := s.idx + chunkSize,
                          numRead := s.numRead + sub.length })
    else
      let sub := s.inner.drop s.idx
      some (sub, { s with idx := 0, numRead := s.numRead + sub.length })
  else
    none

/-- All frames produced by polling the stream at most `fuel` times (the
stream itself carries no fuel; `2·numToRead + 2` polls always reach the
terminated state, as proved below). -/
def emitFrames : Nat → PerpetualByteStream → List (List Nat)
  | 0, _ => []
  | fuel + 1, s =>
    match pollNext s with
    | none => []
    | some (f, s2) => f :: emitFrames fuel s2

/-- Stream state after `k` polls (staying put once the stream ended). -/
def pollIter (s : PerpetualByteStream) : Nat → PerpetualByteStream
  | 0 => s
  | k + 1 =>
    match pollNext (pollIter s k) with
    | none => pollIter s k
    | some p => p.2

/-- The circular slice the specification describes: `len` bytes, byte `k`
being `buf[(off + k) mod |buf|]`. -/
def circSlice (buf : List Nat) (off len : Nat) : List Nat :=
  (List.range len).map (fun k => buf.getD ((off + k) % buf.length) 0)

/-! ## `src/stream/checksum.rs` and the stream supplier -/

/-- Rust `Checksum` (`src/stream/checksum.rs`). -/
inductive Checksum where
  | md5
  | crc32
  | crc32c
  | sha1
  | sha2
deriving Repr, DecidableEq

/-- Every byte the stream emits, in order: the flattening of all its frames
(with fuel that the termination theorem shows is always sufficient). -/
def streamAllBytes (s : PerpetualByteStream) : List Nat :=
  (emitFrames (2 * s.numToRead + 2) s).flatten

/-- Rust `StreamedChecksum::apply` feeds every frame of the stream into the
incremental hasher of the chosen algorithm and hex-formats the digest; that
equals a pure function of the concatenated bytes.  The algorithms themselves
live in external crates (`md5`, `crc`, `sha1`, `sha2`, `crc32c_hw`), so they
are abstracted as the parameter `hash`. -/
def checksumApply (hash : Checksum → List Nat → String) (c : Checksum)
    (s : PerpetualByteStream) : String :=
  hash c (streamAllBytes s)

/-- Rust `StreamCacheKey`. -/
structure StreamCacheKey where
  checksum : Checksum
  offset : Nat
  len : Nat
deriving Repr, DecidableEq

/-- Lookup in the checksum memoization table (`HashMap` modelled as an
association list, inserts at the head). -/
def cacheLookup (cache : List (StreamCacheKey × String)) (k : StreamCacheKey) :
    Option String :=
  (cache.find? (fun e => e.1 == k)).map (fun e => e.2)

/-- Rust `DEFAULT_CACHE_LINE_SIZE`; `cache_line_size()` reads the OS value on
Linux and falls back to this.  No theorem below depends on the value. -/
def cacheLineSize : Nat := 64

/-- Rust `PerpetualByteStreamSupplier`. -/
structure PerpetualByteStreamSupplier where
  buf : List Nat
  offset : Nat
  len : Nat
  checksumCache : List (StreamCacheKey × String)
deriving Repr, DecidableEq

/-- Rust `PerpetualByteStreamSupplier::new` (empty cache). -/
def PerpetualByteStreamSupplier.new (buf : List Nat) (offset len : Nat) :
    PerpetualByteStreamSupplier :=
  { buf := buf, offset := offset, len := len, checksumCache := [] }

/-- Rust `StreamProvider::new_stream` for the supplier: hands out a stream at
the current offset, then advances the offset by one cache line modulo the
buffer length. -/
def PerpetualByteStreamSupplier.newStream (s : PerpetualByteStreamSupplier) :
    PerpetualByteStream × PerpetualByteStreamSupplier :=
  (PerpetualByteStream.new s.buf s.offset s.len,
   { s with offset := (s.offset + cacheLineSize) % s.buf.length })

/-- Rust `StreamProvider::new_stream_with_checksum`: on a cache hit returns
the memoized digest; on a miss applies the checksum to a stream over the
current `(offset, len)` window and inserts the digest.  Either way a fresh
stream over the same window is returned and the offset advances. -/
def PerpetualByteStreamSupplier.newStreamWithChecksum
    (hash : Checksum → List Nat → String) (s : PerpetualByteStreamSupplier)
    (c : Checksum) :
    (PerpetualByteStream × String) × PerpetualByteStreamSupplier :=
  let key : StreamCacheKey := ⟨c, s.offset, s.len⟩
  match cacheLookup s.checksumCache key with
  | some v =>
    ((PerpetualByteStream.new s.buf s.offset s.len, v),
     { s with offset := (s.offset + cacheLineSize) % s.buf.length })
  | none =>
    let digest := checksumApply hash c (PerpetualByteStream.new s.buf s.offset s.len)
    ((PerpetualByteStream.new s.buf s.offset s.len, digest),
     { s with checksumCache := (⟨c, s.offset, s.len⟩, digest) :: s.checksumCache,
              offset := (s.offset + cacheLineSize) % s.buf.length })

/-- Well-formedness of the memoization table: every stored digest is the hash
of the bytes a stream over its key's window emits.  It holds for the empty
cache of `new` and is preserved by every operation. -/
def CacheOK (hash : Checksum → List Nat → String) (buf : List Nat)
    (cache : List (StreamCacheKey × String)) : Prop :=
  ∀ k v, (k, v) ∈ cache →
    v = hash k.checksum (streamAllBytes (PerpetualByteStream.new buf k.offset k.len))

end Loaded

namespace Loaded

/-! ## Theorems: divvy (claim C3) -/

theorem divvy_length (c t : Nat) : (divvy c t).length = t := by
  simp [divvy]

theorem divvy_aux_sum (n r q : Nat) :
    ((List.range n).map (fun i => if i < r then q + 1 else q)).sum = n * q + min r n := by
  induction n with
  | zero => simp
  | succ m ih =>
    rw [List.range_succ, List.map_append, List.sum_append]
    simp only [List.map_cons, List.map_nil, List.sum_cons, List.sum_nil, ih]
    by_cases h : m < r
    · simp only [if_pos h]
      have h1 : min r m = m := by omega
      have h2 : min r (m + 1) = m + 1 := by omega
      have h3 : (m + 1) * q = m * q + q := by ring
      omega
    · simp only [if_neg h]
      have h1 : min r m = min r (m + 1) := by omega
      have h3 : (m + 1) * q = m * q + q := by ring
      omega

theorem divvy_sum (c t : Nat) (ht : 1 ≤ t) : (divvy c t).sum = c := by
  have hmod : c % t < t := Nat.mod_lt _ (by omega)
  rw [divvy, divvy_aux_sum]
  have hmin : min (c % t) t = c % t := by omega
  rw [hmin]
  exact Nat.div_add_mod c t

theorem nat_ceil_div_of_mod_pos (c t : Nat) (ht : 1 ≤ t) (hr : c % t ≠ 0) :
    (c + t - 1) / t = c / t + 1 := by
  have hdm := Nat.div_add_mod c t
  have hmod : c % t < t := Nat.mod_lt _ (by omega)
  have heq : c + t - 1 = t * (c / t + 1) + (c % t - 1) := by
    have hmul : t * (c / t + 1) = t * (c / t) + t := by ring
    omega
  rw [heq, Nat.mul_add_div (by omega)]
  have h0 : (c % t - 1) / t = 0 := Nat.div_eq_of_lt (by omega)
  omega

theorem divvy_mem (c t : Nat) (ht : 1 ≤ t) :
    ∀ x ∈ divvy c t, x = c / t ∨ x = (c + t - 1) / t := by
  intro x hx
  simp only [divvy, List.mem_map, List.mem_range] at hx
  obtain ⟨i, _, hix⟩ := hx
  by_cases h : i < c % t
  · right
    rw [nat_ceil_div_of_mod_pos c t ht (by omega), ← hix, if_pos h]
  · left
    rw [← hix, if_neg h]

theorem divvy_pairwise (c t : Nat) : (divvy c t).Pairwise (· ≥ ·) := by
  rw [divvy, List.pairwise_map]
  apply List.Pairwise.imp _ (List.pairwise_lt_range t)
  intro a b hab
  simp only [ge_iff_le]
  by_cases ha : a < c % t <;> by_cases hb : b < c % t <;>
    simp only [if_pos, if_neg, ha, hb, ite_true, ite_false] <;> omega

/-- C3: for `C ≥ T ≥ 1`, `divvy(C, T)` yields exactly `T` values summing to
`C`, each equal to `⌊C/T⌋` or `⌈C/T⌉ = (C + T − 1) / T`, in non-increasing
order, the first `C mod T` slots getting one extra. -/
theorem divvy_correct (c t : Nat) (ht : 1 ≤ t) (_hct : t ≤ c) :
    (divvy c t).length = t ∧
    (divvy c t).sum = c ∧
    (∀ x ∈ divvy c t, x = c / t ∨ x = (c + t - 1) / t) ∧
    (divvy c t).Pairwise (· ≥ ·) ∧
    (∀ i (h : i < t), (divvy c t).get ⟨i, by simpa [divvy] using h⟩ =
      if i < c % t then c / t + 1 else c / t) := by
  refine ⟨divvy_length c t, divvy_sum c t ht, divvy_mem c t ht,
    divvy_pairwise c t, ?_⟩
  intro i h
  simp [divvy]

theorem divvy_correct_witness :
    (1 ≤ 5 ∧ 5 ≤ 29) ∧
    ((divvy 29 5).length = 5 ∧
     (divvy 29 5).sum = 29 ∧
     (∀ x ∈ divvy 29 5, x = 29 / 5 ∨ x = (29 + 5 - 1) / 5) ∧
     (divvy 29 5).Pairwise (· ≥ ·) ∧
     (∀ i (h : i < 5), (divvy 29 5).get ⟨i, by simpa [divvy] using h⟩ =
       if i < 29 % 5 then 29 / 5 + 1 else 29 / 5)) :=
  ⟨by decide, divvy_correct 29 5 (by decide) (by decide)⟩

/-! ## Theorems: configuration validation (claim C2) -/

/-- C2: when `connections < threads`, `main`'s `Run` branch fails with a
configuration error before the workload (any I/O) runs — the result is an
`error` independent of the workload — and the process exits non-zero. -/
theorem mainRunCmd_config_error (connections threads : Nat)
    (runCmd : Except String Unit) (h : connections < threads) :
    (∃ msg, mainRunCmd connections threads runCmd = Except.error msg) ∧
    processExitCode (mainRunCmd connections threads runCmd) ≠ 0 ∧
    (∀ runCmd2, mainRunCmd connections threads runCmd =
      mainRunCmd connections threads runCmd2) := by
  have key : mainRunCmd connections threads runCmd =
      Except.error
        s!"Connections ({connections}) cannot be less than the number of threads ({threads})." := by
    rw [mainRunCmd, if_pos h]
  refine ⟨⟨_, key⟩, ?_, fun runCmd2 => ?_⟩
  · rw [key]
    simp [processExitCode]
  · rw [key, mainRunCmd, if_pos h]

theorem mainRunCmd_config_error_witness :
    1 < 2 ∧
    ((∃ msg, mainRunCmd 1 2 (Except.ok ()) = Except.error msg) ∧
     processExitCode (mainRunCmd 1 2 (Except.ok ())) ≠ 0 ∧
     (∀ runCmd2, mainRunCmd 1 2 (Except.ok ()) = mainRunCmd 1 2 runCmd2)) :=
  ⟨by decide, mainRunCmd_config_error 1 2 (Except.ok ()) (by decide)⟩

/-! ## Theorems: total runtime aggregation (claim C1) -/

/-- C1 fails on the code: with two workers, `get_total_runtime` folds
`latest_end` starting from `earliest_start` anew on every worker, so the end
times of every worker but the last are discarded.  Worker 0 here has the run
`[0, 50]`, worker 1 the run `[10, 20]`; the specification's value is
`max(end) − min(start) = 50 − 0 = 50`, the code returns `20 − 0 = 20`. -/
theorem get_total_runtime_drops_earlier_workers :
    get_total_runtime 100
      [⟨0, [⟨0, 50⟩]⟩, ⟨1, [⟨10, 20⟩]⟩] = 20 ∧
    specTotalRuntime [⟨0, [⟨0, 50⟩]⟩, ⟨1, [⟨10, 20⟩]⟩] = 50 ∧
    (20 : Nat) ≠ 50 := by
  refine ⟨?_, ?_, by decide⟩ <;> rfl

/-! ## Theorems: request-count completion hook (claims C9) -/

/-- C9 as stated is false on the code: with quota `n = 1`, the third call —
a call after the first `n`, whose increment (to 3) exceeds the quota —
returns `true`, not `false`. -/
theorem rcc_third_call_returns_true :
    1 < 3 ∧
    (rccShouldIssue
      (rccRun (RequestCompletionCondition.new 1) ⟨true, true⟩ 2).1
      (rccRun (RequestCompletionCondition.new 1) ⟨true, true⟩ 2).2).1 = true := by
  constructor
  · decide
  · rfl

/-- C9 amended: each call increments the private counter; the call whose
increment makes the counter exactly `quota + 1` (the `(n+1)`-th call, the
only call whose increment first exceeds the quota) returns `false` and clears
the per-connection local run flag, which then stays cleared; every other call
returns `true`; the global run flag is never modified. -/
theorem rccRun_state (quota : Nat) (g : Bool) (k : Nat) :
    rccRun (RequestCompletionCondition.new quota) ⟨g, true⟩ k =
      (⟨k, quota⟩, ⟨g, decide (k ≤ quota)⟩) := by
  induction k with
  | zero =>
    have h0 : decide (0 ≤ quota) = true := by simp
    rw [h0]
    rfl
  | succ m ih =>
    have step :
        rccRun (RequestCompletionCondition.new quota) ⟨g, true⟩ (m + 1) =
          (rccShouldIssue (rccRun (RequestCompletionCondition.new quota) ⟨g, true⟩ m).1
            (rccRun (RequestCompletionCondition.new quota) ⟨g, true⟩ m).2).2 := rfl
    rw [step, ih]
    by_cases h : m + 1 = quota + 1
    · have hd : decide (m + 1 ≤ quota) = false := by
        rw [decide_eq_false_iff_not]
        omega
      simp only [rccShouldIssue, if_pos h, hd]
    · have hd : decide (m ≤ quota) = decide (m + 1 ≤ quota) := by
        rw [decide_eq_decide]
        omega
      simp only [rccShouldIssue, if_neg h, hd]

theorem rcc_behaviour (quota k : Nat) (g : Bool) :
    (rccRun (RequestCompletionCondition.new quota) ⟨g, true⟩ k).1.numRequests = k ∧
    (rccRun (RequestCompletionCondition.new quota) ⟨g, true⟩ k).2.globalRun = g ∧
    (rccRun (RequestCompletionCondition.new quota) ⟨g, true⟩ k).2.localRun =
      decide (k ≤ quota) ∧
    (rccShouldIssue (rccRun (RequestCompletionCondition.new quota) ⟨g, true⟩ k).1
        (rccRun (RequestCompletionCondition.new quota) ⟨g, true⟩ k).2).1 =
      decide (k + 1 ≠ quota + 1) := by
  rw [rccRun_state]
  refine ⟨rfl, rfl, rfl, ?_⟩
  by_cases h : k + 1 = quota + 1
  · rw [rccShouldIssue, if_pos h]
    simp
    omega
  · rw [rccShouldIssue, if_neg h]
    simp [h]

/-! ## Theorems: stats collector (claim C8) -/

/-- C8: on a 2xx response `after_response` records one RTT sample
(`now − start`) and one TTFB sample, increments `requests_issued`, adds the
declared request size to `bytes_written` and the observed response length to
`bytes_read`, leaving the error map unchanged; on any other status it bumps
`errors[status]` by one and leaves both histograms and all three instant
counters unchanged. -/
theorem statsCollector_afterResponse (c : StatsCollector) (w : WorkerStats)
    (status respLen now s t : Nat)
    (hs : c.start = some s) (ht : c.timeToFirstByte = some t) :
    ∃ w2, afterResponse c w status respLen now = some w2 ∧
      (200 ≤ status ∧ status ≤ 299 →
        w2.runStats.rttLatencyHist = (now - s) :: w.runStats.rttLatencyHist ∧
        w2.runStats.ttfbLatencyHist = t :: w.runStats.ttfbLatencyHist ∧
        w2.instantStats.requestsIssued = w.instantStats.requestsIssued + 1 ∧
        w2.instantStats.bytesWritten = w.instantStats.bytesWritten + c.reqSize ∧
        w2.instantStats.bytesRead = w.instantStats.bytesRead + respLen ∧
        w2.runStats.errors = w.runStats.errors) ∧
      (¬(200 ≤ status ∧ status ≤ 299) →
        w2.runStats.errors status = w.runStats.errors status + 1 ∧
        (∀ sc, sc ≠ status → w2.runStats.errors sc = w.runStats.errors sc) ∧
        w2.runStats.rttLatencyHist = w.runStats.rttLatencyHist ∧
        w2.runStats.ttfbLatencyHist = w.runStats.ttfbLatencyHist ∧
        w2.instantStats = w.instantStats) := by
  by_cases h : 200 ≤ status ∧ status ≤ 299
  · have hS : isSuccess status = true := by
      rw [isSuccess, Bool.and_eq_true, decide_eq_true_iff, decide_eq_true_iff]
      omega
    rw [afterResponse, if_pos hS, hs, ht]
    exact ⟨_, rfl, fun _ => ⟨rfl, rfl, rfl, rfl, rfl, rfl⟩, fun hc => absurd h hc⟩
  · have hS : isSuccess status = false := by
      rw [isSuccess, Bool.and_eq_false_iff]
      rcases Nat.lt_or_ge status 200 with hl | hl
      · exact Or.inl (by simpa using by omega)
      · exact Or.inr (by simpa using by omega)
    rw [afterResponse, if_neg (by rw [hS]; exact Bool.false_ne_true)]
    refine ⟨_, rfl, fun hc => absurd hc h, fun _ => ⟨by simp, ?_, rfl, rfl, rfl⟩⟩
    intro sc hsc
    simp [hsc]

/-! ## Theorems: traffic state machine (claim C5) -/

theorem tsmIter_succ (m : TrafficStateMachine) (j : Nat) :
    tsmIter m (j + 1) = (tsmIter m j).next.2 := rfl

theorem tsm_next_fst (m : TrafficStateMachine) : m.next.1 = m.state := by
  obtain ⟨pat, sup, st⟩ := m
  cases pat
  · rfl
  · rfl
  · cases st
    · rfl
    · rfl

theorem tsm_both_state (p : UriProvider) (i : Nat) :
    tsmIter (TrafficStateMachine.new TrafficPattern.both p) (2 * i) =
      { pattern := TrafficPattern.both
        uriSupplier := p.iter (i + 1)
        state := TrafficState.put (uriAtStep p i) } ∧
    tsmIter (TrafficStateMachine.new TrafficPattern.both p) (2 * i + 1) =
      { pattern := TrafficPattern.both
        uriSupplier := p.iter (i + 1)
        state := TrafficState.get (uriAtStep p i) } := by
  induction i with
  | zero =>
    constructor
    · rfl
    · rfl
  | succ n ih =>
    obtain ⟨_, ih2⟩ := ih
    have h2 : 2 * (n + 1) = (2 * n + 1) + 1 := by ring
    have e1 : tsmIter (TrafficStateMachine.new TrafficPattern.both p) (2 * (n + 1)) =
        { pattern := TrafficPattern.both
          uriSupplier := p.iter (n + 1 + 1)
          state := TrafficState.put (uriAtStep p (n + 1)) } := by
      rw [h2, tsmIter_succ, ih2]
      rfl
    refine ⟨e1, ?_⟩
    rw [tsmIter_succ, e1]
    rfl

/-- C5: for pattern `Both` over any URI-provider state, the first emitted
state is a PUT of the provider's first URI, the state emitted at step `2i`
is a PUT of the provider's `i`-th URI, the state at step `2i+1` is a GET of
that same URI, every call to `next` returns the previous state while storing
the new one, and in particular the first call returns the initial state. -/
theorem tsm_both_correct (p : UriProvider) (i : Nat) :
    tsmEmit (TrafficStateMachine.new TrafficPattern.both p) 0 =
      TrafficState.put (uriAtStep p 0) ∧
    tsmEmit (TrafficStateMachine.new TrafficPattern.both p) (2 * i) =
      TrafficState.put (uriAtStep p i) ∧
    tsmEmit (TrafficStateMachine.new TrafficPattern.both p) (2 * i + 1) =
      TrafficState.get (uriAtStep p i) ∧
    (∀ m : TrafficStateMachine, m.next.1 = m.state) ∧
    tsmEmit (TrafficStateMachine.new TrafficPattern.both p) 0 =
      (TrafficStateMachine.new TrafficPattern.both p).state := by
  obtain ⟨h0, h1⟩ := tsm_both_state p i
  obtain ⟨z0, _⟩ := tsm_both_state p 0
  refine ⟨?_, ?_, ?_, tsm_next_fst, ?_⟩
  · rw [tsmEmit, tsm_next_fst]
    have : tsmIter (TrafficStateMachine.new TrafficPattern.both p) 0 =
        TrafficStateMachine.new TrafficPattern.both p := rfl
    rw [this]
    rfl
  · rw [tsmEmit, tsm_next_fst, h0]
  · rw [tsmEmit, tsm_next_fst, h1]
  · rw [tsmEmit, tsm_next_fst]
    rfl

theorem statsCollector_afterResponse_witness :
    (({ reqSize := 7, start := some 5, timeToFirstByte := some 2 } :
        StatsCollector).start = some 5 ∧
     ({ reqSize := 7, start := some 5, timeToFirstByte := some 2 } :
        StatsCollector).timeToFirstByte = some 2) ∧
    ∃ w2, afterResponse
        { reqSize := 7, start := some 5, timeToFirstByte := some 2 }
        { instantStats := ⟨0, 0, 0⟩,
          runStats := { errors := fun _ => 0,
                        rttLatencyHist := [], ttfbLatencyHist := [] } }
        204 11 9 = some w2 ∧
      (200 ≤ 204 ∧ 204 ≤ 299 →
        w2.runStats.rttLatencyHist = (9 - 5) :: [] ∧
        w2.runStats.ttfbLatencyHist = 2 :: [] ∧
        w2.instantStats.requestsIssued = 0 + 1 ∧
        w2.instantStats.bytesWritten = 0 + 7 ∧
        w2.instantStats.bytesRead = 0 + 11 ∧
        w2.runStats.errors = (fun _ => 0)) ∧
      (¬(200 ≤ 204 ∧ 204 ≤ 299) →
        w2.runStats.errors 204 = (fun _ : Nat => (0 : Nat)) 204 + 1 ∧
        (∀ sc, sc ≠ 204 → w2.runStats.errors sc = 0) ∧
        w2.runStats.rttLatencyHist = [] ∧
        w2.runStats.ttfbLatencyHist = [] ∧
        w2.instantStats = ⟨0, 0, 0⟩) :=
  ⟨⟨rfl, rfl⟩, statsCollector_afterResponse _ _ 204 11 9 5 2 rfl rfl⟩

/-! ## Theorems: URI provider (claim C4) -/

theorem succ_div_of_mod_eq_zero (v B : Nat) (h : (v + 1) % B = 0) :
    (v + 1) / B = v / B + 1 := by
  rw [Nat.succ_div, if_pos (Nat.dvd_of_mod_eq_zero h)]

theorem succ_div_of_mod_ne_zero (v B : Nat) (h : (v + 1) % B ≠ 0) :
    (v + 1) / B = v / B := by
  rw [Nat.succ_div, if_neg (fun hd => h (Nat.mod_eq_zero_of_dvd hd))]
  rfl

theorem digitsBE_eq_baseRep (b : Nat) : ∀ d v, digitsBE b d v = baseRep b d v := by
  intro d
  induction d with
  | zero => intro v; rfl
  | succ n ih =>
    intro v
    rw [digitsBE, ih v, baseRep, baseRep, List.range_succ_eq_map, List.map_cons,
      List.map_map]
    refine congrArg₂ _ ?_ ?_
    · have he : n + 1 - 1 - 0 = n := by omega
      rw [he]
    · apply List.map_congr_left
      intro i hi
      simp only [Function.comp]
      have he : n + 1 - 1 - Nat.succ i = n - 1 - i := by omega
      rw [he]

theorem digitsBE_add_mul_pow (b : Nat) (hb : 1 ≤ b) :
    ∀ d v a, digitsBE b d (v + b ^ d * a) = digitsBE b d v := by
  intro d
  induction d with
  | zero => intro v a; rfl
  | succ n ih =>
    intro v a
    have hB : 0 < b ^ n := Nat.one_le_pow n b (by omega)
    have hp : b ^ (n + 1) * a = b ^ n * (b * a) := by
      rw [pow_succ]
      ring
    rw [digitsBE, hp, ih v (b * a), digitsBE]
    refine congrArg₂ _ ?_ rfl
    rw [Nat.add_mul_div_left v (b * a) hB, Nat.add_mul_mod_self_left]

theorem digitsBE_mod (b : Nat) (hb : 1 ≤ b) (d v : Nat) :
    digitsBE b d (v % b ^ d) = digitsBE b d v := by
  conv_rhs => rw [← Nat.mod_add_div v (b ^ d)]
  exact (digitsBE_add_mul_pow b hb d (v % b ^ d) (v / b ^ d)).symm

theorem digitsBE_zero (b : Nat) : ∀ d, digitsBE b d 0 = List.replicate d 0 := by
  intro d
  induction d with
  | zero => rfl
  | succ n ih =>
    rw [digitsBE, ih, Nat.zero_div, Nat.zero_mod, List.replicate_succ]

theorem incDigits_digitsBE (b : Nat) (hb : 1 ≤ b) :
    ∀ d v, incDigits b (digitsBE b d v) =
      (digitsBE b d (v + 1), decide ((v + 1) % b ^ d = 0)) := by
  intro d
  induction d with
  | zero =>
    intro v
    have h : (v + 1) % b ^ 0 = 0 := by
      rw [pow_zero, Nat.mod_one]
    rw [digitsBE, digitsBE, incDigits, h]
    rfl
  | succ n ih =>
    intro v
    have hB : 0 < b ^ n := Nat.one_le_pow n b (by omega)
    rw [digitsBE, incDigits]
    simp only [ih v]
    by_cases hc : (v + 1) % b ^ n = 0
    · have hct : decide ((v + 1) % b ^ n = 0) = true := by
        rw [decide_eq_true_eq]
        exact hc
      rw [hct, if_pos rfl]
      have hdiv : (v + 1) / b ^ n = v / b ^ n + 1 := succ_div_of_mod_eq_zero v _ hc
      have hhead : (v / b ^ n % b + 1) % b = (v + 1) / b ^ n % b := by
        rw [hdiv, Nat.mod_add_mod]
      have hcarry : ((v + 1) / b ^ n % b = 0) ↔ ((v + 1) % b ^ (n + 1) = 0) := by
        rw [pow_succ, Nat.mod_mul, hc, Nat.zero_add]
        constructor
        · intro hz
          rw [hz, Nat.mul_zero]
        · intro hz
          rcases Nat.mul_eq_zero.mp hz with h1 | h2
          · exact absurd h1 (Nat.pos_iff_ne_zero.mp hB)
          · exact h2
      rw [digitsBE, hhead]
      refine congrArg₂ _ rfl ?_
      exact decide_eq_decide.mpr hcarry
    · have hcf : decide ((v + 1) % b ^ n = 0) = false := by
        rw [decide_eq_false_iff_not]
        exact hc
      rw [hcf, if_neg Bool.false_ne_true]
      have hdiv : (v + 1) / b ^ n = v / b ^ n := succ_div_of_mod_ne_zero v _ hc
      have hcarry : (v + 1) % b ^ (n + 1) ≠ 0 := by
        rw [pow_succ, Nat.mod_mul]
        intro hz
        exact hc (Nat.eq_zero_of_add_eq_zero_right hz)
      rw [digitsBE, hdiv]
      refine congrArg₂ _ rfl ?_
      exact (decide_eq_false hcarry).symm

theorem uriProvider_iter_state (base bucket pfx : String) (d N b : Nat)
    (_hN : 1 ≤ N) (hb : 1 ≤ b) :
    ∀ k, (UriProvider.new base bucket pfx d N b).iter k =
      { base := base, bucket := bucket, objPfx := pfx, numObjsPerPfx := N,
        objCnt := k % N,
        radixNum :=
          if 0 < d then some ⟨digitsBE b d (k / N), b⟩ else none } := by
  intro k
  induction k with
  | zero =>
    rw [UriProvider.iter, UriProvider.new]
    have h1 : (0 : Nat) % N = 0 := Nat.zero_mod N
    have h2 : (0 : Nat) / N = 0 := Nat.zero_div N
    rw [h1, h2, ArbitraryRadixNumber.new, digitsBE_zero]
  | succ m ih =>
    have step : (UriProvider.new base bucket pfx d N b).iter (m + 1) =
        ((UriProvider.new base bucket pfx d N b).iter m).next.2 := rfl
    rw [step, ih, UriProvider.next]
    simp only []
    have hcnt : (m % N + 1) % N = (m + 1) % N := Nat.mod_add_mod m N 1
    by_cases hw : (m + 1) % N = 0
    · have hdiv : (m + 1) / N = m / N + 1 := succ_div_of_mod_eq_zero m N hw
      rw [hcnt, hw, if_pos rfl, hdiv]
      by_cases hd : 0 < d
      · rw [if_pos hd, if_pos hd, Option.map_some', ArbitraryRadixNumber.increment]
        simp only [incDigits_digitsBE b hb d (m / N)]
      · rw [if_neg hd, if_neg hd, Option.map_none']
    · have hdiv : (m + 1) / N = m / N := succ_div_of_mod_ne_zero m N hw
      rw [hcnt, if_neg hw, hdiv]

/-- C4: the URI produced by the `k`-th call to `next` (from `k = 0`) of a
provider with folder depth `d`, `numObjsPerPfx = N ≥ 1` and `branches =
b ≥ 1` is exactly `base/bucket/<d0/d1/.../>objPfx<objCnt>` with
`objCnt = k mod N` and digit vector the `d`-digit base-`b` representation of
`⌊k/N⌋ mod b^d` (and no directory component at all when `d = 0`, since the
digit vector is then empty). -/
theorem uriProvider_correct (base bucket pfx : String) (d N b k : Nat)
    (hN : 1 ≤ N) (hb : 1 ≤ b) :
    uriAtStep (UriProvider.new base bucket pfx d N b) k =
      base ++ "/" ++ bucket ++ "/" ++ dirString (baseRep b d (k / N % b ^ d)) ++
        pfx ++ toString (k % N) := by
  rw [uriAtStep, uriProvider_iter_state base bucket pfx d N b hN hb k,
    UriProvider.next]
  simp only []
  rw [← digitsBE_eq_baseRep, digitsBE_mod b hb]
  by_cases hd : 0 < d
  · rw [if_pos hd]
  · rw [if_neg hd]
    have h0 : d = 0 := by omega
    subst h0
    rw [digitsBE]
    rfl

theorem uriProvider_correct_witness :
    (1 ≤ 2 ∧ 1 ≤ 2) ∧
    uriAtStep (UriProvider.new "http://h:1" "b" "p" 2 2 2) 5 = "http://h:1/b/1/0/p1" :=
  ⟨⟨by decide, by decide⟩,
    (uriProvider_correct "http://h:1" "b" "p" 2 2 2 5 (by decide) (by decide)).trans
      (by decide)⟩

/-! ## Theorems: perpetual byte stream (claim C6) -/

theorem circSlice_zero (buf : List Nat) (i : Nat) : circSlice buf i 0 = [] := rfl

theorem circSlice_length (buf : List Nat) (i n : Nat) :
    (circSlice buf i n).length = n := by
  rw [circSlice, List.length_map, List.length_range]

theorem circSlice_add (buf : List Nat) (i a c : Nat) :
    circSlice buf i (a + c) = circSlice buf i a ++ circSlice buf (i + a) c := by
  rw [circSlice, circSlice, circSlice, List.range_add, List.map_append, List.map_map]
  refine congrArg₂ _ rfl ?_
  apply List.map_congr_left
  intro k _
  simp only [Function.comp]
  have he : i + (a + k) = i + a + k := by ring
  rw [he]

theorem circSlice_contig (buf : List Nat) (i n : Nat) (h : i + n ≤ buf.length) :
    circSlice buf i n = (buf.drop i).take n := by
  simp only [circSlice]
  apply List.ext_getElem
  · rw [List.length_map, List.length_range, List.length_take, List.length_drop]
    omega
  · intro k h1 h2
    rw [List.length_map, List.length_range] at h1
    simp only [List.getElem_map, List.getElem_range, List.getElem_take,
      List.getElem_drop]
    have hm : (i + k) % buf.length = i + k := Nat.mod_eq_of_lt (by omega)
    rw [hm]
    exact List.getD_eq_getElem buf 0 (by omega)

theorem circSlice_tail (buf : List Nat) (i : Nat) (h : i ≤ buf.length) :
    circSlice buf i (buf.length - i) = buf.drop i := by
  rw [circSlice_contig buf i _ (by omega)]
  exact List.take_of_length_le (by rw [List.length_drop])

theorem circSlice_wrap (buf : List Nat) (c : Nat) :
    circSlice buf buf.length c = circSlice buf 0 c := by
  simp only [circSlice]
  apply List.map_congr_left
  intro k _
  have he : (buf.length + k) % buf.length = (0 + k) % buf.length := by
    rw [Nat.add_mod_left, Nat.zero_add]
  rw [he]

theorem circSlice_chunk_split (buf : List Nat) (i n c : Nat) (hc : c ≤ n)
    (hin : i + c ≤ buf.length) :
    circSlice buf i n = (buf.drop i).take c ++ circSlice buf (i + c) (n - c) := by
  have hsplit : n = c + (n - c) := by omega
  conv_lhs => rw [hsplit]
  rw [circSlice_add]
  exact congrArg₂ _ (circSlice_contig buf i c hin) rfl

theorem circSlice_wrap_split (buf : List Nat) (i n : Nat) (hi : i ≤ buf.length)
    (hn : buf.length - i ≤ n) :
    circSlice buf i n = buf.drop i ++ circSlice buf 0 (n - (buf.length - i)) := by
  have hsplit : n = (buf.length - i) + (n - (buf.length - i)) := by omega
  conv_lhs => rw [hsplit]
  rw [circSlice_add]
  refine congrArg₂ _ (circSlice_tail buf i hi) ?_
  have he : i + (buf.length - i) = buf.length := by omega
  rw [he, circSlice_wrap]

theorem emitFrames_join (fuel : Nat) :
    ∀ s : PerpetualByteStream, s.inner ≠ [] → s.idx ≤ s.inner.length →
      s.numRead ≤ s.numToRead →
      2 * (s.numToRead - s.numRead) +
        (if s.idx = s.inner.length then 1 else 0) + 1 ≤ fuel →
      (emitFrames fuel s).flatten = circSlice s.inner s.idx (s.numToRead - s.numRead) := by
  induction fuel with
  | zero =>
    intro s _ _ _ hf
    omega
  | succ fl ih =>
    intro s hne hidx hnr hf
    have hlen : 0 < s.inner.length := List.length_pos.mpr hne
    have he1 : (if s.idx = s.inner.length then (1 : Nat) else 0) ≤ 1 := by
      split
      · omega
      · omega
    by_cases hrem : s.numRead < s.numToRead
    · have hchunk_le : min (s.numToRead - s.numRead) CHUNK_SIZE ≤
          s.numToRead - s.numRead := Nat.min_le_left _ _
      have hchunk_pos : 1 ≤ min (s.numToRead - s.numRead) CHUNK_SIZE := by
        rw [CHUNK_SIZE]
        omega
      by_cases hin : s.idx + min (s.numToRead - s.numRead) CHUNK_SIZE ≤ s.inner.length
      · have hsublen : ((s.inner.drop s.idx).take
            (min (s.numToRead - s.numRead) CHUNK_SIZE)).length =
            min (s.numToRead - s.numRead) CHUNK_SIZE := by
          rw [List.length_take, List.length_drop]
          omega
        have hpoll : pollNext s =
            some ((s.inner.drop s.idx).take (min (s.numToRead - s.numRead) CHUNK_SIZE),
              ⟨s.inner, s.idx + min (s.numToRead - s.numRead) CHUNK_SIZE,
                s.numToRead,
                s.numRead + min (s.numToRead - s.numRead) CHUNK_SIZE⟩) := by
          simp only [pollNext, if_pos hrem, if_pos hin, hsublen]
        have hemit : emitFrames (fl + 1) s =
            ((s.inner.drop s.idx).take (min (s.numToRead - s.numRead) CHUNK_SIZE)) ::
              emitFrames fl ⟨s.inner, s.idx + min (s.numToRead - s.numRead) CHUNK_SIZE,
                s.numToRead,
                s.numRead + min (s.numToRead - s.numRead) CHUNK_SIZE⟩ := by
          rw [emitFrames, hpoll]
        have hbound : 2 * (s.numToRead -
              (s.numRead + min (s.numToRead - s.numRead) CHUNK_SIZE)) +
            (if s.idx + min (s.numToRead - s.numRead) CHUNK_SIZE = s.inner.length
              then (1 : Nat) else 0) + 1 ≤ fl := by
          have he2 : (if s.idx + min (s.numToRead - s.numRead) CHUNK_SIZE =
              s.inner.length then (1 : Nat) else 0) ≤ 1 := by
            split
            · omega
            · omega
          generalize (if s.idx = s.inner.length then (1 : Nat) else 0) = e1 at hf he1
          generalize (if s.idx + min (s.numToRead - s.numRead) CHUNK_SIZE =
            s.inner.length then (1 : Nat) else 0) = e2 at he2 ⊢
          omega
        have hrec := ih ⟨s.inner, s.idx + min (s.numToRead - s.numRead) CHUNK_SIZE,
            s.numToRead, s.numRead + min (s.numToRead - s.numRead) CHUNK_SIZE⟩
          hne hin
          (by
            show s.numRead + min (s.numToRead - s.numRead) CHUNK_SIZE ≤ s.numToRead
            omega)
          hbound
        rw [hemit, List.flatten_cons, hrec,
          circSlice_chunk_split s.inner s.idx (s.numToRead - s.numRead)
            (min (s.numToRead - s.numRead) CHUNK_SIZE) hchunk_le hin]
        refine congrArg₂ _ rfl ?_
        have he : s.numToRead - s.numRead - min (s.numToRead - s.numRead) CHUNK_SIZE =
            s.numToRead - (s.numRead + min (s.numToRead - s.numRead) CHUNK_SIZE) := by
          omega
        rw [he]
      · have hsublen : (s.inner.drop s.idx).length = s.inner.length - s.idx :=
          List.length_drop s.idx s.inner
        have htail_le : s.inner.length - s.idx ≤ s.numToRead - s.numRead := by omega
        have hpoll : pollNext s =
            some (s.inner.drop s.idx,
              ⟨s.inner, 0, s.numToRead, s.numRead + (s.inner.length - s.idx)⟩) := by
          simp only [pollNext, if_pos hrem, if_neg hin, hsublen]
        have hemit : emitFrames (fl + 1) s =
            (s.inner.drop s.idx) ::
              emitFrames fl ⟨s.inner, 0, s.numToRead,
                s.numRead + (s.inner.length - s.idx)⟩ := by
          rw [emitFrames, hpoll]
        have hbound : 2 * (s.numToRead - (s.numRead + (s.inner.length - s.idx))) +
            (if (0 : Nat) = s.inner.length then (1 : Nat) else 0) + 1 ≤ fl := by
          have hz : (if (0 : Nat) = s.inner.length then (1 : Nat) else 0) = 0 := by
            rw [if_neg]
            omega
          rw [hz]
          by_cases hel : s.idx = s.inner.length
          · rw [if_pos hel] at hf
            omega
          · rw [if_neg hel] at hf
            omega
        have hrec := ih ⟨s.inner, 0, s.numToRead,
            s.numRead + (s.inner.length - s.idx)⟩
          hne (Nat.zero_le _)
          (by
            show s.numRead + (s.inner.length - s.idx) ≤ s.numToRead
            omega)
          hbound
        rw [hemit, List.flatten_cons, hrec,
          circSlice_wrap_split s.inner s.idx (s.numToRead - s.numRead) hidx htail_le]
        refine congrArg₂ _ rfl ?_
        have he : s.numToRead - s.numRead - (s.inner.length - s.idx) =
            s.numToRead - (s.numRead + (s.inner.length - s.idx)) := by omega
        rw [he]
    · have hpoll : pollNext s = none := by
        rw [pollNext, if_neg hrem]
      rw [emitFrames, hpoll]
      have hz : s.numToRead - s.numRead = 0 := by omega
      rw [hz, circSlice_zero]
      rfl

/-- C6: a perpetual stream over a non-empty buffer starting in bounds with
target length `len` emits frames whose concatenation is exactly `len` bytes,
byte `k` of it being `buffer[(offset + k) mod |buffer|]` (the `circSlice`),
and once `num_read` has reached `num_to_read` the stream yields no further
frame.  `fuel` bounds the number of polls; any `fuel ≥ 2·len + 2` sees every
frame, so the emitted list is independent of `fuel` beyond that bound. -/
theorem perpetualByteStream_correct (buf : List Nat) (off len fuel : Nat)
    (hne : buf ≠ []) (hoff : off < buf.length) (hfuel : 2 * len + 2 ≤ fuel) :
    (emitFrames fuel (PerpetualByteStream.new buf off len)).flatten =
      circSlice buf off len ∧
    (emitFrames fuel (PerpetualByteStream.new buf off len)).flatten.length = len ∧
    (∀ s : PerpetualByteStream, s.numToRead ≤ s.numRead → pollNext s = none) := by
  have h1 := emitFrames_join fuel (PerpetualByteStream.new buf off len) hne
    (by
      show off ≤ buf.length
      omega)
    (by
      show (0 : Nat) ≤ len
      omega)
    (by
      show 2 * (len - 0) + (if off = buf.length then 1 else 0) + 1 ≤ fuel
      rw [if_neg (by omega)]
      omega)
  have h1x : (emitFrames fuel (PerpetualByteStream.new buf off len)).flatten =
      circSlice buf off len := h1
  refine ⟨h1x, ?_, ?_⟩
  · rw [h1x, circSlice_length]
  · intro s hs
    rw [pollNext, if_neg (by omega)]

theorem perpetualByteStream_correct_witness :
    (([1, 2, 3] : List Nat) ≠ [] ∧ 1 < ([1, 2, 3] : List Nat).length ∧
      2 * 5 + 2 ≤ 12) ∧
    ((emitFrames 12 (PerpetualByteStream.new [1, 2, 3] 1 5)).flatten =
      circSlice [1, 2, 3] 1 5 ∧
     (emitFrames 12 (PerpetualByteStream.new [1, 2, 3] 1 5)).flatten.length = 5 ∧
     (∀ s : PerpetualByteStream, s.numToRead ≤ s.numRead → pollNext s = none)) :=
  ⟨⟨by decide, by decide, by decide⟩,
    perpetualByteStream_correct [1, 2, 3] 1 5 12 (by decide) (by decide) (by decide)⟩

/-! ## Theorems: checksum supplier (claim C7) -/

theorem nswc_stream_shape (hash : Checksum → List Nat → String)
    (s : PerpetualByteStreamSupplier) (c : Checksum) :
    (s.newStreamWithChecksum hash c).1.1 =
      PerpetualByteStream.new s.buf s.offset s.len := by
  rw [PerpetualByteStreamSupplier.newStreamWithChecksum]
  cases cacheLookup s.checksumCache ⟨c, s.offset, s.len⟩
  · rfl
  · rfl

theorem nswc_supplier_shape (hash : Checksum → List Nat → String)
    (s : PerpetualByteStreamSupplier) (c : Checksum) :
    (s.newStreamWithChecksum hash c).2.offset =
      (s.offset + cacheLineSize) % s.buf.length ∧
    (s.newStreamWithChecksum hash c).2.buf = s.buf ∧
    (s.newStreamWithChecksum hash c).2.len = s.len := by
  rw [PerpetualByteStreamSupplier.newStreamWithChecksum]
  cases cacheLookup s.checksumCache ⟨c, s.offset, s.len⟩
  · exact ⟨rfl, rfl, rfl⟩
  · exact ⟨rfl, rfl, rfl⟩

theorem cacheLookup_mem (cache : List (StreamCacheKey × String))
    (key : StreamCacheKey) (v : String) (h : cacheLookup cache key = some v) :
    (key, v) ∈ cache := by
  rw [cacheLookup] at h
  obtain ⟨e, hfind, he2⟩ := Option.map_eq_some'.mp h
  have hmem := List.mem_of_find?_eq_some hfind
  have hpred := List.find?_some hfind
  have he1 : e.1 = key := by
    simpa using hpred
  have : (key, v) = e := by
    rw [← he1, ← he2]
  rw [this]
  exact hmem

theorem nswc_digest (hash : Checksum → List Nat → String)
    (s : PerpetualByteStreamSupplier) (c : Checksum)
    (hok : CacheOK hash s.buf s.checksumCache) :
    (s.newStreamWithChecksum hash c).1.2 =
      hash c (streamAllBytes (PerpetualByteStream.new s.buf s.offset s.len)) := by
  cases hl : cacheLookup s.checksumCache ⟨c, s.offset, s.len⟩ with
  | none =>
    rw [PerpetualByteStreamSupplier.newStreamWithChecksum, hl]
    rfl
  | some v =>
    have heq : (s.newStreamWithChecksum hash c).1.2 = v := by
      rw [PerpetualByteStreamSupplier.newStreamWithChecksum, hl]
    rw [heq]
    exact hok ⟨c, s.offset, s.len⟩ v (cacheLookup_mem _ _ _ hl)

/-- C7: `new_stream_with_checksum` returns the hex digest of the checksum
algorithm applied to exactly the bytes the returned stream emits; two calls
with the same `(algorithm, offset, len)` key (on well-formed caches over the
same buffer) return the same digest; a key already in the memoization table
is answered from it with the table unchanged (no recomputation), and after
any call the key is in the table, so later identical keys hit the cache;
table well-formedness is preserved. -/
theorem newStreamWithChecksum_correct (hash : Checksum → List Nat → String)
    (s : PerpetualByteStreamSupplier) (c : Checksum)
    (hok : CacheOK hash s.buf s.checksumCache) :
    ((s.newStreamWithChecksum hash c).1.2 =
      hash c (streamAllBytes ((s.newStreamWithChecksum hash c).1.1))) ∧
    ((s.newStreamWithChecksum hash c).1.1 =
      PerpetualByteStream.new s.buf s.offset s.len) ∧
    (∀ s2 : PerpetualByteStreamSupplier, s2.buf = s.buf → s2.offset = s.offset →
      s2.len = s.len → CacheOK hash s2.buf s2.checksumCache →
      (s2.newStreamWithChecksum hash c).1.2 = (s.newStreamWithChecksum hash c).1.2) ∧
    (∀ v, cacheLookup s.checksumCache ⟨c, s.offset, s.len⟩ = some v →
      (s.newStreamWithChecksum hash c).2.checksumCache = s.checksumCache ∧
      (s.newStreamWithChecksum hash c).1.2 = v) ∧
    (cacheLookup (s.newStreamWithChecksum hash c).2.checksumCache
        ⟨c, s.offset, s.len⟩ = some ((s.newStreamWithChecksum hash c).1.2)) ∧
    CacheOK hash s.buf (s.newStreamWithChecksum hash c).2.checksumCache := by
  refine ⟨?_, nswc_stream_shape hash s c, ?_, ?_, ?_, ?_⟩
  · rw [nswc_stream_shape hash s c]
    exact nswc_digest hash s c hok
  · intro s2 hb ho hl hok2
    rw [nswc_digest hash s2 c hok2, nswc_digest hash s c hok, hb, ho, hl]
  · intro v hv
    constructor
    · rw [PerpetualByteStreamSupplier.newStreamWithChecksum, hv]
    · rw [PerpetualByteStreamSupplier.newStreamWithChecksum, hv]
  · cases hl : cacheLookup s.checksumCache ⟨c, s.offset, s.len⟩ with
    | none =>
      have hcc : (s.newStreamWithChecksum hash c).2.checksumCache =
          (⟨c, s.offset, s.len⟩,
            checksumApply hash c (PerpetualByteStream.new s.buf s.offset s.len)) ::
            s.checksumCache := by
        rw [PerpetualByteStreamSupplier.newStreamWithChecksum, hl]
      have hd : (s.newStreamWithChecksum hash c).1.2 =
          checksumApply hash c (PerpetualByteStream.new s.buf s.offset s.len) := by
        rw [PerpetualByteStreamSupplier.newStreamWithChecksum, hl]
      rw [hcc, hd, cacheLookup, List.find?_cons_of_pos _ (by simp)]
      rfl
    | some v =>
      have hcc : (s.newStreamWithChecksum hash c).2.checksumCache =
          s.checksumCache := by
        rw [PerpetualByteStreamSupplier.newStreamWithChecksum, hl]
      have hd : (s.newStreamWithChecksum hash c).1.2 = v := by
        rw [PerpetualByteStreamSupplier.newStreamWithChecksum, hl]
      rw [hcc, hd, hl]
  · cases hl : cacheLookup s.checksumCache ⟨c, s.offset, s.len⟩ with
    | none =>
      have hcc : (s.newStreamWithChecksum hash c).2.checksumCache =
          (⟨c, s.offset, s.len⟩,
            checksumApply hash c (PerpetualByteStream.new s.buf s.offset s.len)) ::
            s.checksumCache := by
        rw [PerpetualByteStreamSupplier.newStreamWithChecksum, hl]
      rw [hcc]
      intro k v hmem
      rcases List.mem_cons.mp hmem with hh | ht
      · have hk : k = ⟨c, s.offset, s.len⟩ ∧
            v = checksumApply hash c (PerpetualByteStream.new s.buf s.offset s.len) := by
          exact ⟨congrArg Prod.fst hh, congrArg Prod.snd hh⟩
        rw [hk.1, hk.2]
        rfl
      · exact hok k v ht
    | some v =>
      have hcc : (s.newStreamWithChecksum hash c).2.checksumCache =
          s.checksumCache := by
        rw [PerpetualByteStreamSupplier.newStreamWithChecksum, hl]
      rw [hcc]
      exact hok

theorem newStreamWithChecksum_correct_witness :
    CacheOK (fun _ l => toString l.sum) [5, 6]
      (PerpetualByteStreamSupplier.new [5, 6] 1 3).checksumCache ∧
    (((PerpetualByteStreamSupplier.new [5, 6] 1 3).newStreamWithChecksum
        (fun _ l => toString l.sum) Checksum.md5).1.2 =
      (fun _ l => toString l.sum) Checksum.md5
        (streamAllBytes
          (((PerpetualByteStreamSupplier.new [5, 6] 1 3).newStreamWithChecksum
            (fun _ l => toString l.sum) Checksum.md5).1.1)) ∧
     (((PerpetualByteStreamSupplier.new [5, 6] 1 3).newStreamWithChecksum
        (fun _ l => toString l.sum) Checksum.md5).1.1 =
       PerpetualByteStream.new [5, 6] 1 3) ∧
     (∀ s2 : PerpetualByteStreamSupplier, s2.buf = [5, 6] → s2.offset = 1 →
       s2.len = 3 → CacheOK (fun _ l => toString l.sum) s2.buf s2.checksumCache →
       ((s2.newStreamWithChecksum (fun _ l => toString l.sum) Checksum.md5).1.2 =
        ((PerpetualByteStreamSupplier.new [5, 6] 1 3).newStreamWithChecksum
          (fun _ l => toString l.sum) Checksum.md5).1.2)) ∧
     (∀ v, cacheLookup (PerpetualByteStreamSupplier.new [5, 6] 1 3).checksumCache
          ⟨Checksum.md5, 1, 3⟩ = some v →
       ((PerpetualByteStreamSupplier.new [5, 6] 1 3).newStreamWithChecksum
          (fun _ l => toString l.sum) Checksum.md5).2.checksumCache =
         (PerpetualByteStreamSupplier.new [5, 6] 1 3).checksumCache ∧
       ((PerpetualByteStreamSupplier.new [5, 6] 1 3).newStreamWithChecksum
          (fun _ l => toString l.sum) Checksum.md5).1.2 = v) ∧
     (cacheLookup (((PerpetualByteStreamSupplier.new [5, 6] 1 3).newStreamWithChecksum
          (fun _ l => toString l.sum) Checksum.md5).2.checksumCache)
        ⟨Checksum.md5, 1, 3⟩ =
       some (((PerpetualByteStreamSupplier.new [5, 6] 1 3).newStreamWithChecksum
          (fun _ l => toString l.sum) Checksum.md5).1.2)) ∧
     CacheOK (fun _ l => toString l.sum) [5, 6]
       (((PerpetualByteStreamSupplier.new [5, 6] 1 3).newStreamWithChecksum
          (fun _ l => toString l.sum) Checksum.md5).2.checksumCache)) :=
  ⟨fun k v h => absurd h (List.not_mem_nil (k, v)),
    newStreamWithChecksum_correct (fun _ l => toString l.sum)
      (PerpetualByteStreamSupplier.new [5, 6] 1 3) Checksum.md5
      (fun k v h => absurd h (List.not_mem_nil (k, v)))⟩

/-! ## Theorems: supplier offset and stream index safety (claim C10) -/

theorem pollNext_some_inv (s : PerpetualByteStream)
    (p : List Nat × PerpetualByteStream) (h : pollNext s = some p) :
    p.2.idx ≤ p.2.inner.length ∧ p.2.inner = s.inner := by
  by_cases hrem : s.numRead < s.numToRead
  · by_cases hin : s.idx + min (s.numToRead - s.numRead) CHUNK_SIZE ≤ s.inner.length
    · simp only [pollNext, if_pos hrem, if_pos hin, Option.some.injEq] at h
      rw [← h]
      exact ⟨hin, rfl⟩
    · simp only [pollNext, if_pos hrem, if_neg hin, Option.some.injEq] at h
      rw [← h]
      exact ⟨Nat.zero_le _, rfl⟩
  · rw [pollNext, if_neg hrem] at h
    exact Option.noConfusion h

theorem pollIter_inv (s : PerpetualByteStream) (h0 : s.idx ≤ s.inner.length) :
    ∀ k, (pollIter s k).idx ≤ (pollIter s k).inner.length ∧
      (pollIter s k).inner = s.inner := by
  intro k
  induction k with
  | zero => exact ⟨h0, rfl⟩
  | succ m ih =>
    have step : pollIter s (m + 1) =
        match pollNext (pollIter s m) with
        | none => pollIter s m
        | some p => p.2 := rfl
    cases hp : pollNext (pollIter s m) with
    | none =>
      rw [step, hp]
      exact ih
    | some p =>
      rw [step, hp]
      have hinv := pollNext_some_inv (pollIter s m) p hp
      exact ⟨hinv.1, hinv.2.trans ih.2⟩

/-- C10: with a non-empty buffer and in-bounds offset, the supplier's offset
stays strictly below the buffer length after `new_stream` and
`new_stream_with_checksum` (the advance is taken modulo the buffer length),
every stream handed out starts at the supplier's in-bounds offset over the
same buffer, and along any sequence of polls the stream's index never
exceeds the buffer length — the bound that keeps both slicing branches of
`poll_next` (in particular the tail slice `inner[idx..]`) within the
buffer, so no slice panic is reachable. -/
theorem supplier_stream_safety (hash : Checksum → List Nat → String)
    (s : PerpetualByteStreamSupplier) (c : Checksum)
    (hne : s.buf ≠ []) (hoff : s.offset < s.buf.length) :
    (s.newStream.2.offset < s.buf.length ∧ s.newStream.2.buf = s.buf) ∧
    ((s.newStreamWithChecksum hash c).2.offset < s.buf.length ∧
     (s.newStreamWithChecksum hash c).2.buf = s.buf) ∧
    (s.newStream.1.idx = s.offset ∧ s.newStream.1.inner = s.buf ∧
     (s.newStreamWithChecksum hash c).1.1.idx = s.offset ∧
     (s.newStreamWithChecksum hash c).1.1.inner = s.buf) ∧
    (∀ k, (pollIter s.newStream.1 k).idx ≤ (pollIter s.newStream.1 k).inner.length ∧
          (pollIter s.newStream.1 k).inner = s.buf) := by
  have hlen : 0 < s.buf.length := List.length_pos.mpr hne
  obtain ⟨ho, hb, _⟩ := nswc_supplier_shape hash s c
  refine ⟨⟨?_, rfl⟩, ⟨?_, hb⟩, ⟨rfl, rfl, ?_, ?_⟩, ?_⟩
  · exact Nat.mod_lt _ hlen
  · rw [ho]
    exact Nat.mod_lt _ hlen
  · rw [nswc_stream_shape hash s c]
    rfl
  · rw [nswc_stream_shape hash s c]
    rfl
  · intro k
    exact pollIter_inv s.newStream.1 (Nat.le_of_lt hoff) k

theorem supplier_stream_safety_witness :
    (([5, 6] : List Nat) ≠ [] ∧
      (PerpetualByteStreamSupplier.new [5, 6] 1 3).offset <
        (PerpetualByteStreamSupplier.new [5, 6] 1 3).buf.length) ∧
    (((PerpetualByteStreamSupplier.new [5, 6] 1 3).newStream.2.offset <
        (PerpetualByteStreamSupplier.new [5, 6] 1 3).buf.length ∧
      (PerpetualByteStreamSupplier.new [5, 6] 1 3).newStream.2.buf = [5, 6]) ∧
     (((PerpetualByteStreamSupplier.new [5, 6] 1 3).newStreamWithChecksum
         (fun _ l => toString l.sum) Checksum.sha2).2.offset <
        (PerpetualByteStreamSupplier.new [5, 6] 1 3).buf.length ∧
      ((PerpetualByteStreamSupplier.new [5, 6] 1 3).newStreamWithChecksum
         (fun _ l => toString l.sum) Checksum.sha2).2.buf = [5, 6]) ∧
     ((PerpetualByteStreamSupplier.new [5, 6] 1 3).newStream.1.idx =
        (PerpetualByteStreamSupplier.new [5, 6] 1 3).offset ∧
      (PerpetualByteStreamSupplier.new [5, 6] 1 3).newStream.1.inner = [5, 6] ∧
      ((PerpetualByteStreamSupplier.new [5, 6] 1 3).newStreamWithChecksum
         (fun _ l => toString l.sum) Checksum.sha2).1.1.idx =
        (PerpetualByteStreamSupplier.new [5, 6] 1 3).offset ∧
      ((PerpetualByteStreamSupplier.new [5, 6] 1 3).newStreamWithChecksum
         (fun _ l => toString l.sum) Checksum.sha2).1.1.inner = [5, 6]) ∧
     (∀ k, (pollIter (PerpetualByteStreamSupplier.new [5, 6] 1 3).newStream.1 k).idx ≤
          (pollIter (PerpetualByteStreamSupplier.new [5, 6] 1 3).newStream.1 k).inner.length ∧
          (pollIter (PerpetualByteStreamSupplier.new [5, 6] 1 3).newStream.1 k).inner =
            [5, 6])) :=
  ⟨⟨by decide, by decide⟩,
    supplier_stream_safety (fun _ l => toString l.sum)
      (PerpetualByteStreamSupplier.new [5, 6] 1 3) Checksum.sha2
      (by decide) (by decide)⟩

end Loaded
